import Mathlib

/-!
Verification development for the BitburnerPlugin build-pipeline extension
(`src/index.ts`).  The plugin's `onEnd` handler, its `queued` single-flight
flag, the output-file resolution chain, the mirror orchestration loops, the
extension-hook dispatch and the react import shim are embedded shallowly
below; the handler's suspension points (each `await`) become explicit
scheduler actions of a small-step machine so that interleavings of
back-to-back build submissions and connection events can be reasoned about.
-/

namespace Plugin

/-! ## Output File Resolver (index.ts lines 163-170)

Paths are modelled as `List Char`.  A `RDirent` is one entry returned by
`fs.readdir(outdir, { recursive := true, withFileTypes := true })`:
`parentPath` is the directory containing the entry (prefixed by the
`outdir` string exactly as configured), `name` the base name. -/

structure RDirent where
  parentPath : List Char
  name : List Char
  isFile : Bool
deriving DecidableEq

structure OutFile where
  server : List Char
  filename : List Char
  path : List Char
deriving DecidableEq

/-- Model of `file.path.replaceAll('\\', '/')`. -/
def normSlash (p : List Char) : List Char :=
  p.map fun c => if c = '\\' then '/' else c

/-- Model of `.replace(/^.*?\//, '')`: drop everything up to and including the first
slash; a string with no slash is left unchanged. -/
def stripFirstSeg (p : List Char) : List Char :=
  match p.dropWhile (fun c => c != '/') with
  | [] => p
  | _ :: r => r

/-- Model of `.split('/')[0]`. -/
def firstSeg (p : List Char) : List Char :=
  p.takeWhile fun c => c != '/'

/-- The chain at index.ts lines 163-170: filter to regular files, rebase the
path (normalize separators, strip the first segment), then build the
descriptor with `server` = first segment of the rebased path, `filename` =
rebased path joined with the name minus its first segment, and `path` =
`outdir/rebased/name`. -/
def resolveFiles (outdir : List Char) (entries : List RDirent) : List OutFile :=
  (entries.filter fun d => d.isFile).map fun d =>
    let rp := stripFirstSeg (normSlash d.parentPath)
    { server := firstSeg rp
      filename := stripFirstSeg (rp ++ '/' :: d.name)
      path := outdir ++ '/' :: rp ++ '/' :: d.name }

/-- The resolution step including the `fs.readdir` call itself.  Modelled
from Node semantics: `readdir` on an absent directory rejects with `ENOENT`,
and the handler at line 163 does not catch, so the listing of an absent
directory is an error.  `none` stands for an absent `outdir`. -/
def resolveStep (outdir : List Char) (listing : Option (List RDirent)) :
    Except (List Char) (List OutFile) :=
  match listing with
  | none => Except.error "ENOENT".toList
  | some es => Except.ok (resolveFiles outdir es)

/-- The dirents `readdir` returns for an output directory holding exactly
the regular files `serverA/x.js` and `serverB/sub/y.js`, with host path
separator `sep` (directories are listed too and carry `isFile := false`). -/
def c3Entries (od : List Char) (sep : Char) : List RDirent :=
  [ { parentPath := od, name := "serverA".toList, isFile := false },
    { parentPath := od, name := "serverB".toList, isFile := false },
    { parentPath := od ++ sep :: "serverA".toList, name := "x.js".toList, isFile := true },
    { parentPath := od ++ sep :: "serverB".toList, name := "sub".toList, isFile := false },
    { parentPath := od ++ sep :: "serverB".toList ++ sep :: "sub".toList,
      name := "y.js".toList, isFile := true } ]

/-- The two descriptors claim C3 expects for that directory. -/
def c3Expected (od : List Char) : List OutFile :=
  [ { server := "serverA".toList, filename := "x.js".toList,
      path := od ++ "/serverA/x.js".toList },
    { server := "serverB".toList, filename := "sub/y.js".toList,
      path := od ++ "/serverB/sub/y.js".toList } ]

/-! ## React import shim (index.ts lines 129-145) -/

structure ResolveResult where
  ns : String
  path : String
deriving DecidableEq

/-- The language of the anchored filter regex `/^react(-dom)?$/`. -/
def reactFilter (s : String) : Bool :=
  s == "react" || s == "react-dom"

/-- Model of `pluginBuild.onResolve({ filter }, ...)`: paths matching the filter are
redirected into the `react` namespace; other paths are untouched (`none`). -/
def onResolveReact (path : String) : Option ResolveResult :=
  if reactFilter path then some { ns := "react", path := path } else none

/-- Model of `pluginBuild.onLoad({ filter, namespace := react }, ...)`: for a path in
the `react` namespace matching the filter, the loaded contents per the
callback body; `none` where the callback is not applicable or returns
`undefined`. -/
def onLoadReact (ns path : String) : Option String :=
  if ns == "react" && reactFilter path then
    if path == "react" then some "module.exports = window.React"
    else if path == "react-dom" then some "module.exports = window.ReactDOM"
    else none
  else none

/-! ## Extension Hook Dispatcher
(`Promise.allSettled(extensions.map(e => (e.hook ?? noop)(...)))`)

A registered extension either does not implement the hook (`missing`, the
`?? (() => {})` fallback), implements it and throws synchronously when
called (`throwsSync`), implements it and returns a promise that rejects
(`rejects`), or returns a promise that fulfills (`resolves`). -/

inductive HookB where
  | missing | throwsSync | rejects | resolves
deriving DecidableEq

/-- JavaScript semantics of `extensions.map(e => (e.hook ?? noop)(...))`:
the callbacks are invoked left to right while building the promise array; a
synchronous throw escapes `map` immediately, so later extensions are never
invoked.  The payload is the list of indices whose own hook was invoked
(`missing` entries invoke only the no-op). -/
def mapHooks : Nat → List HookB → Except (List Nat) (List Nat)
  | _, [] => Except.ok []
  | i, HookB.missing :: rest => mapHooks (i + 1) rest
  | i, HookB.throwsSync :: _ => Except.error [i]
  | i, _ :: rest =>
      match mapHooks (i + 1) rest with
      | Except.ok l => Except.ok (i :: l)
      | Except.error l => Except.error (i :: l)

inductive InvokeRes where
  | raised (invoked : List Nat)
  | settled (invoked : List Nat)
deriving DecidableEq

/-- One hook dispatch: build the promise array, then `Promise.allSettled`
(which waits for every promise, fulfilled or rejected, and never rejects
itself).  A synchronous throw during `map` escapes before `allSettled`. -/
def invoke (exts : List HookB) : InvokeRes :=
  match mapHooks 0 exts with
  | Except.error l => InvokeRes.raised l
  | Except.ok l => InvokeRes.settled l

/-- Indices of the extensions that implement the hook. -/
def implementers : Nat → List HookB → List Nat
  | _, [] => []
  | i, HookB.missing :: rest => implementers (i + 1) rest
  | i, _ :: rest => i :: implementers (i + 1) rest

/-- Claim C6 as stated, at one extension list: dispatch never raises and
every implementing extension's hook is invoked. -/
def c6Claim (exts : List HookB) : Prop :=
  invoke exts = InvokeRes.settled (implementers 0 exts)

/-! ## Mirror Orchestrator (index.ts lines 84-117)

The `client-connected` mirror handler builds all sessions, then runs
`await m.initFileCache()` for each in a loop, then `await m.syncWithRemote()`
for each in a loop, then `m.watch()` for each.  A rejected await aborts the
handler.  The trace of calls is deterministic given each session's
outcomes. -/

structure MSession where
  initOk : Bool
  syncOk : Bool
deriving DecidableEq

inductive MEv where
  | initStart (i : Nat) | initDone (i : Nat) | initFail (i : Nat)
  | syncStart (i : Nat) | syncDone (i : Nat) | syncFail (i : Nat)
  | watchStart (i : Nat)
deriving DecidableEq

/-- The first loop: sequential `await mirror.initFileCache()`; a rejection
stops the loop (and the handler).  Returns the emitted events and whether
the loop completed. -/
def initPhase : Nat → List MSession → List MEv × Bool
  | _, [] => ([], true)
  | i, s :: rest =>
      if s.initOk then
        let p := initPhase (i + 1) rest
        (MEv.initStart i :: MEv.initDone i :: p.1, p.2)
      else ([MEv.initStart i, MEv.initFail i], false)

/-- The second loop: sequential `await mirror.syncWithRemote()`. -/
def syncPhase : Nat → List MSession → List MEv × Bool
  | _, [] => ([], true)
  | i, s :: rest =>
      if s.syncOk then
        let p := syncPhase (i + 1) rest
        (MEv.syncStart i :: MEv.syncDone i :: p.1, p.2)
      else ([MEv.syncStart i, MEv.syncFail i], false)

/-- The third loop: `mirror.watch()` for every session, not awaited. -/
def watchEvents (n : Nat) : List MEv :=
  (List.range n).map MEv.watchStart

/-- The full call trace of the mirror handler. -/
def mirrorTrace (ss : List MSession) : List MEv :=
  let ip := initPhase 0 ss
  if ip.2 then
    let sp := syncPhase 0 ss
    if sp.2 then ip.1 ++ sp.1 ++ watchEvents ss.length
    else ip.1 ++ sp.1
  else ip.1

def isInitEv : MEv → Bool
  | MEv.initStart _ => true
  | MEv.initDone _ => true
  | MEv.initFail _ => true
  | _ => false

def isSyncEv : MEv → Bool
  | MEv.syncStart _ => true
  | MEv.syncDone _ => true
  | MEv.syncFail _ => true
  | _ => false

/-! ## Deployment Queue / Build Lifecycle machine (index.ts lines 119-205)

Each completed build invokes the `onEnd` handler.  The handler runs
synchronously from its entry to its first `await`; the remaining code is cut
at every suspension point, and each resumption becomes an explicit scheduler
action, so arbitrary interleavings of handlers, connection events and disk
writes are traces of the machine.

A file is an abstract descriptor together with the outcome its
`pushFile` / `calculateRAM` round trips will have. -/

structure F where
  server : String
  filename : String
  pushOk : Bool
  ramOk : Bool
deriving DecidableEq

/-- The per-invocation state of one `onEnd` handler, between suspension
points.  `errDrop`: returned at line 148 (compile errors).  `gateDrop`:
returned at line 149 (`queued` was set).  `waitingClient`: suspended at the
`await new Promise` (lines 155-160).  `readingDir`: suspended at
`await fs.readdir` (line 163).  `pushing files outstanding`: suspended at
`await Promise.all(pushes)` (line 181) with `outstanding` not yet settled.
`pushFailed`: the `Promise.all` rejected, the handler threw.  `ramming`:
suspended at the `Promise.all` over `calculateRAM` (lines 184-188).
`ramFailed`: that `Promise.all` rejected.  `hooking`: suspended at
`await Promise.allSettled(afterBuild hooks)` (line 202).  `emptyDone`:
returned at line 172 (`files.length == 0`).  `doneOk`: ran to completion. -/
inductive HState where
  | errDrop | gateDrop | waitingClient | readingDir
  | pushing (files : List F) (outstanding : List F)
  | pushFailed
  | ramming (files : List F) (outstanding : List F)
  | ramFailed
  | hooking
  | emptyDone
  | doneOk
deriving DecidableEq

/-- Observable remote calls, tagged with the index of the handler (= build
cycle) that issued them. -/
inductive Ev where
  | pushStart (h : Nat) (f : F)
  | pushSettle (h : Nat) (f : F)
  | ramStart (h : Nat) (f : F)
  | ramSettle (h : Nat) (f : F)
  | hookDispatch (h : Nat)
deriving DecidableEq

/-- Global state: the remote connection flag (`remoteAPI.connection`,
readable synchronously), the module-level `queued` flag (line 119), the
current contents of `outdir` on disk, the handler instances in submission
order, and the chronological log of remote calls. -/
structure Sys where
  connected : Bool
  queued : Bool
  disk : List F
  handlers : List HState
  log : List Ev
deriving DecidableEq

inductive Act where
  | writeDisk (out : List F)
  | submit (errors : Bool)
  | connect
  | disconnect
  | readdirDone (h : Nat)
  | settlePush (h : Nat) (i : Nat)
  | resumePushes (h : Nat)
  | settleRam (h : Nat) (i : Nat)
  | resumeRam (h : Nat)
  | settleHooks (h : Nat)
deriving DecidableEq

/-- Handler state at index `h`; out-of-range indices read as the inert
`errDrop`. -/
def getH (s : Sys) (h : Nat) : HState := s.handlers.getD h HState.errDrop

/-- The synchronous prefix of `onEnd` (lines 148-161): the error check, the
`queued` check, then the connection check; when no connection is active the
handler sets `queued := true` and suspends on the `client-connected`
promise, all before any suspension point.  Returns the new handler state and
the new value of `queued`. -/
def entryState (s : Sys) (errors : Bool) : HState × Bool :=
  if errors then (HState.errDrop, s.queued)
  else if s.queued then (HState.gateDrop, s.queued)
  else if s.connected then (HState.readingDir, s.queued)
  else (HState.waitingClient, true)

/-- Effect of a `client-connected` event on one suspended handler: the
promise at lines 155-160 resolves, resuming the handler into the `readdir`
call; handlers not waiting are unaffected. -/
def resumeWaiting : HState → HState
  | HState.waitingClient => HState.readingDir
  | st => st

def step (s : Sys) (a : Act) : Sys :=
  match a with
  | Act.writeDisk out => { s with disk := out }
  | Act.submit errors =>
      let p := entryState s errors
      { s with handlers := s.handlers ++ [p.1], queued := p.2 }
  | Act.connect =>
      { s with connected := true, handlers := s.handlers.map resumeWaiting }
  | Act.disconnect => { s with connected := false }
  | Act.readdirDone h =>
      match getH s h with
      | HState.readingDir =>
          if s.disk = [] then { s with handlers := s.handlers.set h HState.emptyDone }
          else
            { s with handlers := s.handlers.set h (HState.pushing s.disk s.disk),
                     log := s.log ++ s.disk.map (Ev.pushStart h) }
      | _ => s
  | Act.settlePush h i =>
      match getH s h with
      | HState.pushing files outst =>
          match outst[i]? with
          | some f =>
              if f.pushOk then
                { s with handlers := s.handlers.set h (HState.pushing files (outst.eraseIdx i)),
                         log := s.log ++ [Ev.pushSettle h f] }
              else
                { s with handlers := s.handlers.set h HState.pushFailed,
                         log := s.log ++ [Ev.pushSettle h f] }
          | none => s
      | _ => s
  | Act.resumePushes h =>
      match getH s h with
      | HState.pushing files outst =>
          if outst = [] then
            { s with handlers := s.handlers.set h (HState.ramming files files),
                     log := s.log ++ files.map (Ev.ramStart h) }
          else s
      | _ => s
  | Act.settleRam h i =>
      match getH s h with
      | HState.ramming files outst =>
          match outst[i]? with
          | some f =>
              if f.ramOk then
                { s with handlers := s.handlers.set h (HState.ramming files (outst.eraseIdx i)),
                         log := s.log ++ [Ev.ramSettle h f] }
              else
                { s with handlers := s.handlers.set h HState.ramFailed,
                         log := s.log ++ [Ev.ramSettle h f] }
          | none => s
      | _ => s
  | Act.resumeRam h =>
      match getH s h with
      | HState.ramming _ outst =>
          if outst = [] then
            { s with handlers := s.handlers.set h HState.hooking,
                     queued := false,
                     log := s.log ++ [Ev.hookDispatch h] }
          else s
      | _ => s
  | Act.settleHooks h =>
      match getH s h with
      | HState.hooking => { s with handlers := s.handlers.set h HState.doneOk }
      | _ => s

def run (s : Sys) (acts : List Act) : Sys := acts.foldl step s

/-- Plugin setup state: no connection yet, `queued := false`, empty log. -/
def init : Sys :=
  { connected := false, queued := false, disk := [], handlers := [], log := [] }

/-! ### Event bookkeeping for the barrier and no-call properties -/

inductive K where
  | ps | pd | rs | rd | hk
deriving DecidableEq

def keyOf : Ev → K × Nat
  | Ev.pushStart h _ => (K.ps, h)
  | Ev.pushSettle h _ => (K.pd, h)
  | Ev.ramStart h _ => (K.rs, h)
  | Ev.ramSettle h _ => (K.rd, h)
  | Ev.hookDispatch h => (K.hk, h)

/-- Number of events of kind `k` issued by handler `h` in `l`. -/
def cnt (k : K) (h : Nat) (l : List Ev) : Nat :=
  l.countP fun e => decide (keyOf e = (k, h))

/-- Handler `h` has issued no remote calls at all. -/
def Quiet (h : Nat) (l : List Ev) : Prop :=
  cnt K.ps h l = 0 ∧ cnt K.pd h l = 0 ∧ cnt K.rs h l = 0 ∧
  cnt K.rd h l = 0 ∧ cnt K.hk h l = 0

/-- Correspondence between a handler's phase and the calls it has issued. -/
def phaseOk (h : Nat) (l : List Ev) : HState → Prop
  | HState.pushing files outst =>
      cnt K.ps h l = files.length ∧ cnt K.pd h l + outst.length = files.length ∧
      cnt K.rs h l = 0 ∧ cnt K.rd h l = 0 ∧ cnt K.hk h l = 0
  | HState.ramming files outst =>
      cnt K.ps h l = cnt K.pd h l ∧ cnt K.rs h l = files.length ∧
      cnt K.rd h l + outst.length = files.length ∧ cnt K.hk h l = 0
  | HState.errDrop => Quiet h l
  | HState.gateDrop => Quiet h l
  | HState.waitingClient => Quiet h l
  | HState.readingDir => Quiet h l
  | HState.emptyDone => Quiet h l
  | _ => True

/-- The cross-stage barrier, as a property of one chronological log: at any
point where some `calculateRAM` call of cycle `h` has already been started,
every `pushFile` call of cycle `h` started so far has also settled; and at
any point where the `afterBuild` hooks of cycle `h` have been dispatched,
every started `calculateRAM` call of cycle `h` has settled. -/
def Bal (l : List Ev) : Prop :=
  ∀ h : Nat,
    ((∃ f, Ev.ramStart h f ∈ l) → cnt K.ps h l = cnt K.pd h l) ∧
    (Ev.hookDispatch h ∈ l → cnt K.rs h l = cnt K.rd h l)

/-- The barrier holds of every prefix of the log, i.e. at every instant. -/
def PrefixBal (l : List Ev) : Prop := ∀ p, p <+: l → Bal p

def Inv (s : Sys) : Prop := PrefixBal s.log ∧ ∀ h, phaseOk h s.log (getH s h)

/-- Number of push sequences at this instant that are past the gate checks
and not yet finished (accepted, not dropped, not terminated). -/
def activePush : HState → Bool
  | HState.readingDir => true
  | HState.pushing _ _ => true
  | HState.ramming _ _ => true
  | HState.hooking => true
  | _ => false

def inFlightCount (s : Sys) : Nat := s.handlers.countP activePush

/-! ### Concrete inputs used in counterexamples and witnesses -/

def f0 : F := { server := "home", filename := "main.js", pushOk := true, ramOk := true }

/-- Two back-to-back error-free builds while a client is connected, each
then resuming its `readdir`. -/
def c1acts : List Act :=
  [Act.connect, Act.writeDisk [f0], Act.submit false, Act.submit false,
   Act.readdirDone 0, Act.readdirDone 1]

/-- A build completing with no client connected, the client then connecting,
and the `readdir` resolving to an empty output directory. -/
def c2acts : List Act :=
  [Act.submit false, Act.connect, Act.readdirDone 0]

/-- One full successful cycle. -/
def c8acts : List Act :=
  [Act.connect, Act.writeDisk [f0], Act.submit false, Act.readdirDone 0,
   Act.settlePush 0 0, Act.resumePushes 0, Act.settleRam 0 0, Act.resumeRam 0,
   Act.settleHooks 0]

/-- A state with one handler suspended waiting for a client. -/
def c1wSys : Sys :=
  { connected := false, queued := true, disk := [],
    handlers := [HState.waitingClient], log := [] }

def sOK : MSession := { initOk := true, syncOk := true }

def c5l1 : List MEv :=
  [MEv.initStart 0, MEv.initDone 0, MEv.initStart 1, MEv.initDone 1]

def c5l2 : List MEv :=
  [MEv.syncDone 0, MEv.syncStart 1, MEv.syncDone 1, MEv.watchStart 0, MEv.watchStart 1]

/-- The conclusion of claim C4 for a base state `s` and a build whose output
is `out`: after the build completes disconnected, the handler suspends with
the gate busy; concurrent submissions are dropped while it waits; only a
`client-connected` event resumes it, a second such event does not resume it
again; and once resumed its `readdir` yields exactly `out`, whose files are
then pushed. -/
def c4Concl (s : Sys) (out : List F) : Prop :=
  let s1 := step (step s (Act.writeDisk out)) (Act.submit false)
  let h := s.handlers.length
  let s2 := step s1 Act.connect
  let s3 := step s2 (Act.readdirDone h)
  (getH s1 h = HState.waitingClient ∧ s1.queued = true) ∧
  (∀ e, getH (step s1 (Act.submit e)) s1.handlers.length =
      (if e then HState.errDrop else HState.gateDrop)) ∧
  (∀ a, a ≠ Act.connect → getH (step s1 a) h = HState.waitingClient) ∧
  (getH s2 h = HState.readingDir ∧ getH (step s2 Act.connect) h = HState.readingDir) ∧
  (getH s3 h = HState.pushing out out ∧ s3.log = s2.log ++ out.map (Ev.pushStart h))

/-! ## General list lemmas used by the development -/

lemma getD_append_lt {α : Type} (l1 l2 : List α) (d : α) (h : Nat)
    (hl : h < l1.length) : (l1 ++ l2).getD h d = l1.getD h d := by
  induction l1 generalizing h with
  | nil => simp at hl
  | cons a t ih =>
      cases h with
      | zero => rfl
      | succ n =>
          simp only [List.length_cons, Nat.succ_lt_succ_iff] at hl
          simpa [List.getD] using ih n hl

lemma getD_snoc_len {α : Type} (l : List α) (x d : α) :
    (l ++ [x]).getD l.length d = x := by
  induction l with
  | nil => rfl
  | cons a t ih => simp [ih]

lemma getD_ge {α : Type} (l : List α) (h : Nat) (d : α) (hl : l.length ≤ h) :
    l.getD h d = d := by
  induction l generalizing h with
  | nil => simp [List.getD]
  | cons a t ih =>
      cases h with
      | zero => simp at hl
      | succ n =>
          simp only [List.length_cons, Nat.succ_le_succ_iff] at hl
          simpa [List.getD] using ih n hl

lemma getD_set_self {α : Type} (l : List α) (i : Nat) (x d : α)
    (hi : i < l.length) : (l.set i x).getD i d = x := by
  induction l generalizing i with
  | nil => simp at hi
  | cons a t ih =>
      cases i with
      | zero => rfl
      | succ n =>
          simp only [List.length_cons, Nat.succ_lt_succ_iff] at hi
          simpa [List.getD, List.set] using ih n hi

lemma getD_set_ne {α : Type} (l : List α) (i j : Nat) (x d : α)
    (hij : i ≠ j) : (l.set i x).getD j d = l.getD j d := by
  induction l generalizing i j with
  | nil => simp [List.set]
  | cons a t ih =>
      cases i with
      | zero =>
          cases j with
          | zero => exact absurd rfl hij
          | succ m => rfl
      | succ n =>
          cases j with
          | zero => rfl
          | succ m =>
              have : n ≠ m := fun hc => hij (by rw [hc])
              simpa [List.getD, List.set] using ih n m this

lemma getD_map_resumeWaiting (l : List HState) (h : Nat) :
    (l.map resumeWaiting).getD h HState.errDrop =
      resumeWaiting (l.getD h HState.errDrop) := by
  induction l generalizing h with
  | nil => simp [List.getD, resumeWaiting]
  | cons a t ih =>
      cases h with
      | zero => rfl
      | succ n => simpa [List.getD] using ih n

lemma eq_append_split {α : Type} (xs r l1 l2 : List α) (e : α)
    (hne : ∀ x ∈ xs, x ≠ e) (heq : xs ++ r = l1 ++ e :: l2) :
    ∃ m, l1 = xs ++ m ∧ r = m ++ e :: l2 := by
  induction xs generalizing l1 with
  | nil => exact ⟨l1, rfl, heq⟩
  | cons x xs ih =>
      cases l1 with
      | nil =>
          exfalso
          have hx : x = e := by simpa using congrArg (fun t => t.headD x) heq
          exact hne x (List.mem_cons_self x xs) hx
      | cons y l1 =>
          have hxy : x = y := by simpa using congrArg (fun t => t.headD x) heq
          have htail : xs ++ r = l1 ++ e :: l2 := by
            have := congrArg List.tail heq
            simpa using this
          obtain ⟨m, hm1, hm2⟩ :=
            ih l1 (fun z hz => hne z (List.mem_cons_of_mem x hz)) htail
          exact ⟨m, by simp [← hxy, hm1], hm2⟩

lemma prefix_append_cases {α : Type} (p l ext : List α) (hp : p <+: l ++ ext) :
    p <+: l ∨ ∃ q, q <+: ext ∧ p = l ++ q := by
  by_cases hlen : p.length ≤ l.length
  · exact Or.inl (List.prefix_of_prefix_length_le hp (List.prefix_append l ext) hlen)
  · right
    have hlp : l <+: p :=
      List.prefix_of_prefix_length_le (List.prefix_append l ext) hp (le_of_not_le hlen)
    obtain ⟨q, hq⟩ := hlp
    refine ⟨q, ?_, hq.symm⟩
    obtain ⟨t, ht⟩ := hp
    rw [← hq, List.append_assoc] at ht
    exact ⟨t, List.append_cancel_left ht⟩

lemma prefix_single {α : Type} (p : List α) (e : α) (hp : p <+: [e]) :
    p = [] ∨ p = [e] := by
  cases p with
  | nil => exact Or.inl rfl
  | cons a t =>
      obtain ⟨r, hr⟩ := hp
      rw [List.cons_append] at hr
      injection hr with h1 h2
      have ht : t = [] := (List.append_eq_nil.mp h2).1
      exact Or.inr (by rw [h1, ht])

/-! ## Event counting lemmas -/

lemma cnt_nil (k : K) (h : Nat) : cnt k h [] = 0 := rfl

lemma cnt_append (k : K) (h : Nat) (l1 l2 : List Ev) :
    cnt k h (l1 ++ l2) = cnt k h l1 + cnt k h l2 := by
  simp [cnt, List.countP_append]

lemma cnt_cons (k : K) (h : Nat) (e : Ev) (l : List Ev) :
    cnt k h (e :: l) = cnt k h l + (if keyOf e = (k, h) then 1 else 0) := by
  simp [cnt, List.countP_cons]

lemma cnt_single (k : K) (h : Nat) (e : Ev) :
    cnt k h [e] = if keyOf e = (k, h) then 1 else 0 := by
  rw [cnt_cons, cnt_nil, Nat.zero_add]

lemma cnt_append_single (k : K) (h : Nat) (l : List Ev) (e : Ev) :
    cnt k h (l ++ [e]) = cnt k h l + (if keyOf e = (k, h) then 1 else 0) := by
  rw [cnt_append, cnt_single]

lemma cnt_map_const {β : Type} (f : β → Ev) (c : K × Nat)
    (hf : ∀ x, keyOf (f x) = c) (out : List β) (k : K) (h : Nat) :
    cnt k h (out.map f) = if c = (k, h) then out.length else 0 := by
  induction out with
  | nil => by_cases hc : c = (k, h) <;> simp [cnt, hc]
  | cons a t ih =>
      rw [List.map_cons, cnt_cons, ih, hf a]
      by_cases hc : c = (k, h) <;> simp [hc]

lemma cnt_pos_of_mem {e : Ev} {l : List Ev} {k : K} {h : Nat}
    (he : e ∈ l) (hk : keyOf e = (k, h)) : cnt k h l ≠ 0 := by
  have hp : 0 < cnt k h l := by
    apply List.countP_pos_iff.mpr
    exact ⟨e, he, by simp [hk]⟩
  omega

lemma cnt_of_all_ne {l : List Ev} {k : K} {h : Nat}
    (hall : ∀ e ∈ l, keyOf e ≠ (k, h)) : cnt k h l = 0 := by
  apply List.countP_eq_zero.mpr
  intro e he
  simp [hall e he]

/-! ## Resolver string lemmas -/

lemma normSlash_clean (l : List Char) (h : '\\' ∉ l) : normSlash l = l := by
  induction l with
  | nil => rfl
  | cons a t ih =>
      have ha : ¬ a = '\\' := by
        intro hc
        exact h (by rw [hc]; exact List.mem_cons_self _ _)
      have ht : '\\' ∉ t := fun hm => h (List.mem_cons_of_mem a hm)
      show (if a = '\\' then '/' else a) :: normSlash t = a :: t
      rw [if_neg ha, ih ht]

lemma normSlash_append (l1 l2 : List Char) :
    normSlash (l1 ++ l2) = normSlash l1 ++ normSlash l2 := by
  simp [normSlash]

lemma normSlash_sep (sep : Char) (l : List Char) (hs : sep = '/' ∨ sep = '\\') :
    normSlash (sep :: l) = '/' :: normSlash l := by
  show (if sep = '\\' then '/' else sep) :: normSlash l = '/' :: normSlash l
  cases hs with
  | inl h => rw [h, if_neg (by decide)]
  | inr h => rw [h, if_pos rfl]

lemma dropWhile_slash (od r : List Char) (h : '/' ∉ od) :
    (od ++ '/' :: r).dropWhile (fun c => c != '/') = '/' :: r := by
  induction od with
  | nil => simp [List.dropWhile_cons]
  | cons a t ih =>
      have ha : a ≠ '/' := by
        intro hc
        exact h (by rw [hc]; exact List.mem_cons_self _ _)
      have ht : '/' ∉ t := fun hm => h (List.mem_cons_of_mem a hm)
      simp only [List.cons_append, List.dropWhile_cons]
      rw [if_pos (by simp [ha]), ih ht]

lemma stripFirstSeg_append (od r : List Char) (h : '/' ∉ od) :
    stripFirstSeg (od ++ '/' :: r) = r := by
  unfold stripFirstSeg
  rw [dropWhile_slash od r h]

/-! ## Hook dispatcher lemmas -/

lemma mapHooks_ok (exts : List HookB) :
    ∀ i : Nat, HookB.throwsSync ∉ exts →
      mapHooks i exts = Except.ok (implementers i exts) := by
  induction exts with
  | nil => intro i _; rfl
  | cons b rest ih =>
      intro i hns
      have hrest : HookB.throwsSync ∉ rest := fun hm => hns (List.mem_cons_of_mem b hm)
      cases b with
      | missing => simpa [mapHooks, implementers] using ih (i + 1) hrest
      | throwsSync => exact absurd (List.mem_cons_self _ _) hns
      | rejects => simp [mapHooks, implementers, ih (i + 1) hrest]
      | resolves => simp [mapHooks, implementers, ih (i + 1) hrest]

lemma mapHooks_throw (pre : List HookB) :
    ∀ (i : Nat) (post : List HookB), HookB.throwsSync ∉ pre →
      mapHooks i (pre ++ HookB.throwsSync :: post) =
        Except.error (implementers i pre ++ [i + pre.length]) := by
  induction pre with
  | nil => intro i post _; simp [mapHooks, implementers]
  | cons b rest ih =>
      intro i post hns
      have hrest : HookB.throwsSync ∉ rest := fun hm => hns (List.mem_cons_of_mem b hm)
      have harith : i + 1 + rest.length = i + (rest.length + 1) := by omega
      cases b with
      | missing =>
          rw [List.cons_append]
          show mapHooks (i + 1) (rest ++ HookB.throwsSync :: post) = _
          rw [ih (i + 1) post hrest, harith]
          simp [implementers]
      | throwsSync => exact absurd (List.mem_cons_self _ _) hns
      | rejects =>
          rw [List.cons_append]
          show (match mapHooks (i + 1) (rest ++ HookB.throwsSync :: post) with
            | Except.ok l => Except.ok (i :: l)
            | Except.error l => Except.error (i :: l)) = _
          rw [ih (i + 1) post hrest, harith]
          simp [implementers]
      | resolves =>
          rw [List.cons_append]
          show (match mapHooks (i + 1) (rest ++ HookB.throwsSync :: post) with
            | Except.ok l => Except.ok (i :: l)
            | Except.error l => Except.error (i :: l)) = _
          rw [ih (i + 1) post hrest, harith]
          simp [implementers]

/-! ## Mirror orchestrator lemmas -/

lemma initPhase_kinds (ss : List MSession) :
    ∀ i, ∀ e ∈ (initPhase i ss).1, isInitEv e = true := by
  induction ss with
  | nil => intro i e he; simp [initPhase] at he
  | cons s rest ih =>
      intro i e he
      by_cases hok : s.initOk
      · simp [initPhase, hok] at he
        rcases he with he | he | he
        · rw [he]; rfl
        · rw [he]; rfl
        · exact ih (i + 1) e he
      · simp [initPhase, hok] at he
        rcases he with he | he
        · rw [he]; rfl
        · rw [he]; rfl

lemma syncPhase_kinds (ss : List MSession) :
    ∀ i, ∀ e ∈ (syncPhase i ss).1, isSyncEv e = true := by
  induction ss with
  | nil => intro i e he; simp [syncPhase] at he
  | cons s rest ih =>
      intro i e he
      by_cases hok : s.syncOk
      · simp [syncPhase, hok] at he
        rcases he with he | he | he
        · rw [he]; rfl
        · rw [he]; rfl
        · exact ih (i + 1) e he
      · simp [syncPhase, hok] at he
        rcases he with he | he
        · rw [he]; rfl
        · rw [he]; rfl

lemma initPhase_all_done (ss : List MSession) :
    ∀ i, (initPhase i ss).2 = true →
      ∀ j, j < ss.length → MEv.initDone (i + j) ∈ (initPhase i ss).1 := by
  induction ss with
  | nil => intro i _ j hj; simp at hj
  | cons s rest ih =>
      intro i hok j hj
      by_cases hs : s.initOk
      · simp only [initPhase, hs, if_true] at hok ⊢
        cases j with
        | zero => simp
        | succ m =>
            have hm : m < rest.length := by simpa using hj
            have := ih (i + 1) hok m hm
            simp only [List.mem_cons]
            right; right
            have harith : i + 1 + m = i + (m + 1) := by omega
            rwa [harith] at this
      · simp [initPhase, hs] at hok

lemma syncPhase_all_done (ss : List MSession) :
    ∀ i, (syncPhase i ss).2 = true →
      ∀ j, j < ss.length → MEv.syncDone (i + j) ∈ (syncPhase i ss).1 := by
  induction ss with
  | nil => intro i _ j hj; simp at hj
  | cons s rest ih =>
      intro i hok j hj
      by_cases hs : s.syncOk
      · simp only [syncPhase, hs, if_true] at hok ⊢
        cases j with
        | zero => simp
        | succ m =>
            have hm : m < rest.length := by simpa using hj
            have := ih (i + 1) hok m hm
            simp only [List.mem_cons]
            right; right
            have harith : i + 1 + m = i + (m + 1) := by omega
            rwa [harith] at this
      · simp [syncPhase, hs] at hok

/-! ## Machine bookkeeping lemmas -/

@[simp] lemma keyOf_pushStart (h : Nat) (f : F) : keyOf (Ev.pushStart h f) = (K.ps, h) := rfl
@[simp] lemma keyOf_pushSettle (h : Nat) (f : F) : keyOf (Ev.pushSettle h f) = (K.pd, h) := rfl
@[simp] lemma keyOf_ramStart (h : Nat) (f : F) : keyOf (Ev.ramStart h f) = (K.rs, h) := rfl
@[simp] lemma keyOf_ramSettle (h : Nat) (f : F) : keyOf (Ev.ramSettle h f) = (K.rd, h) := rfl
@[simp] lemma keyOf_hookDispatch (h : Nat) : keyOf (Ev.hookDispatch h) = (K.hk, h) := rfl

lemma cnt_snoc_ne (log : List Ev) (e : Ev) (k : K) (h : Nat)
    (hne : keyOf e ≠ (k, h)) : cnt k h (log ++ [e]) = cnt k h log := by
  rw [cnt_append_single, if_neg hne, Nat.add_zero]

lemma cnt_snoc_eq (log : List Ev) (e : Ev) (k : K) (h : Nat)
    (heq : keyOf e = (k, h)) : cnt k h (log ++ [e]) = cnt k h log + 1 := by
  rw [cnt_append_single, if_pos heq]

lemma cnt_append_tag_ne (log ext : List Ev) (h : Nat)
    (hne : ∀ e ∈ ext, (keyOf e).2 ≠ h) (k : K) :
    cnt k h (log ++ ext) = cnt k h log := by
  rw [cnt_append]
  have hz : cnt k h ext = 0 :=
    cnt_of_all_ne fun e he hc => hne e he (by rw [hc])
  rw [hz, Nat.add_zero]

lemma bal_of_prefixBal {l : List Ev} (hb : PrefixBal l) : Bal l :=
  hb l (List.prefix_refl l)

lemma prefixBal_append_of (l ext : List Ev) (hb : PrefixBal l)
    (hext : ∀ q, q <+: ext → Bal (l ++ q)) : PrefixBal (l ++ ext) := by
  intro p hp
  rcases prefix_append_cases p l ext hp with hpl | ⟨q, hq, hpq⟩
  · exact hb p hpl
  · rw [hpq]
    exact hext q hq

lemma mem_map_pushStart {e : Ev} {g : Nat} {fs : List F}
    (he : e ∈ fs.map (Ev.pushStart g)) : ∃ f, e = Ev.pushStart g f := by
  rcases List.mem_map.mp he with ⟨f, _, hf⟩
  exact ⟨f, hf.symm⟩

lemma mem_map_ramStart {e : Ev} {g : Nat} {fs : List F}
    (he : e ∈ fs.map (Ev.ramStart g)) : ∃ f, e = Ev.ramStart g f := by
  rcases List.mem_map.mp he with ⟨f, _, hf⟩
  exact ⟨f, hf.symm⟩

/-- Appending push-start events of a handler with no ram starts yet
preserves the barrier on all prefixes. -/
lemma bal_append_pushStarts (log : List Ev) (g : Nat) (fs : List F)
    (hb : PrefixBal log) (hrs : cnt K.rs g log = 0) :
    PrefixBal (log ++ fs.map (Ev.pushStart g)) := by
  apply prefixBal_append_of log _ hb
  intro q hq
  have hform : ∀ e ∈ q, ∃ f, e = Ev.pushStart g f :=
    fun e he => mem_map_pushStart (hq.subset he)
  intro h'
  have hqcnt : ∀ k, k ≠ K.ps ∨ h' ≠ g → cnt k h' q = 0 := by
    intro k hk
    apply cnt_of_all_ne
    intro e he
    rcases hform e he with ⟨f, rfl⟩
    simp only [keyOf_pushStart]
    intro hc
    injection hc with hc1 hc2
    rcases hk with hk | hk
    · exact hk hc1.symm
    · exact hk hc2.symm
  constructor
  · rintro ⟨f', hf'⟩
    have hmem : Ev.ramStart h' f' ∈ log := by
      rcases List.mem_append.mp hf' with hm | hm
      · exact hm
      · rcases hform _ hm with ⟨f, hf⟩
        cases hf
    have hne : h' ≠ g := by
      intro hc
      subst hc
      exact cnt_pos_of_mem hmem (by simp) hrs
    rw [cnt_append, cnt_append, hqcnt K.ps (Or.inr hne), hqcnt K.pd (Or.inl (by simp)),
      Nat.add_zero, Nat.add_zero]
    exact ((bal_of_prefixBal hb) h').1 ⟨f', hmem⟩
  · intro hmem0
    have hmem : Ev.hookDispatch h' ∈ log := by
      rcases List.mem_append.mp hmem0 with hm | hm
      · exact hm
      · rcases hform _ hm with ⟨f, hf⟩
        cases hf
    rw [cnt_append, cnt_append, hqcnt K.rs (Or.inl (by simp)), hqcnt K.rd (Or.inl (by simp)),
      Nat.add_zero, Nat.add_zero]
    exact ((bal_of_prefixBal hb) h').2 hmem

/-- Appending one push-settle of a handler with no ram starts yet preserves
the barrier on all prefixes. -/
lemma bal_append_pushSettle (log : List Ev) (g : Nat) (f : F)
    (hb : PrefixBal log) (hrs : cnt K.rs g log = 0) :
    PrefixBal (log ++ [Ev.pushSettle g f]) := by
  apply prefixBal_append_of log _ hb
  intro q hq
  rcases prefix_single q _ hq with rfl | rfl
  · simpa using bal_of_prefixBal hb
  · intro h'
    constructor
    · rintro ⟨f', hf'⟩
      have hmem : Ev.ramStart h' f' ∈ log := by
        rcases List.mem_append.mp hf' with hm | hm
        · exact hm
        · simp at hm
      have hne : h' ≠ g := by
        intro hc
        subst hc
        exact cnt_pos_of_mem hmem (by simp) hrs
      rw [cnt_snoc_ne _ _ _ _ (by simp), cnt_snoc_ne _ _ _ _ (by
        simp only [keyOf_pushSettle]
        intro hc
        injection hc with hc1 hc2
        exact hne hc2.symm)]
      exact ((bal_of_prefixBal hb) h').1 ⟨f', hmem⟩
    · intro hmem0
      have hmem : Ev.hookDispatch h' ∈ log := by
        rcases List.mem_append.mp hmem0 with hm | hm
        · exact hm
        · simp at hm
      rw [cnt_snoc_ne _ _ _ _ (by simp), cnt_snoc_ne _ _ _ _ (by simp)]
      exact ((bal_of_prefixBal hb) h').2 hmem

/-- Appending the ram-start events of a handler whose pushes are balanced
and whose hooks have not been dispatched preserves the barrier. -/
lemma bal_append_ramStarts (log : List Ev) (g : Nat) (fs : List F)
    (hb : PrefixBal log) (heq : cnt K.ps g log = cnt K.pd g log)
    (hhk : cnt K.hk g log = 0) :
    PrefixBal (log ++ fs.map (Ev.ramStart g)) := by
  apply prefixBal_append_of log _ hb
  intro q hq
  have hform : ∀ e ∈ q, ∃ f, e = Ev.ramStart g f :=
    fun e he => mem_map_ramStart (hq.subset he)
  intro h'
  have hqcnt : ∀ k, k ≠ K.rs ∨ h' ≠ g → cnt k h' q = 0 := by
    intro k hk
    apply cnt_of_all_ne
    intro e he
    rcases hform e he with ⟨f, rfl⟩
    simp only [keyOf_ramStart]
    intro hc
    injection hc with hc1 hc2
    rcases hk with hk | hk
    · exact hk hc1.symm
    · exact hk hc2.symm
  constructor
  · rintro ⟨f', hf'⟩
    rw [cnt_append, cnt_append, hqcnt K.ps (Or.inl (by simp)), hqcnt K.pd (Or.inl (by simp)),
      Nat.add_zero, Nat.add_zero]
    rcases List.mem_append.mp hf' with hm | hm
    · exact ((bal_of_prefixBal hb) h').1 ⟨f', hm⟩
    · rcases hform _ hm with ⟨f, hf⟩
      cases hf
      exact heq
  · intro hmem0
    have hmem : Ev.hookDispatch h' ∈ log := by
      rcases List.mem_append.mp hmem0 with hm | hm
      · exact hm
      · rcases hform _ hm with ⟨f, hf⟩
        cases hf
    have hne : h' ≠ g := by
      intro hc
      subst hc
      exact cnt_pos_of_mem hmem (by simp) hhk
    rw [cnt_append, cnt_append, hqcnt K.rs (Or.inr hne), hqcnt K.rd (Or.inl (by simp)),
      Nat.add_zero, Nat.add_zero]
    exact ((bal_of_prefixBal hb) h').2 hmem

/-- Appending one ram-settle of a handler whose hooks have not been
dispatched preserves the barrier. -/
lemma bal_append_ramSettle (log : List Ev) (g : Nat) (f : F)
    (hb : PrefixBal log) (hhk : cnt K.hk g log = 0) :
    PrefixBal (log ++ [Ev.ramSettle g f]) := by
  apply prefixBal_append_of log _ hb
  intro q hq
  rcases prefix_single q _ hq with rfl | rfl
  · simpa using bal_of_prefixBal hb
  · intro h'
    constructor
    · rintro ⟨f', hf'⟩
      have hmem : Ev.ramStart h' f' ∈ log := by
        rcases List.mem_append.mp hf' with hm | hm
        · exact hm
        · simp at hm
      rw [cnt_snoc_ne _ _ _ _ (by simp), cnt_snoc_ne _ _ _ _ (by simp)]
      exact ((bal_of_prefixBal hb) h').1 ⟨f', hmem⟩
    · intro hmem0
      have hmem : Ev.hookDispatch h' ∈ log := by
        rcases List.mem_append.mp hmem0 with hm | hm
        · exact hm
        · simp at hm
      have hne : h' ≠ g := by
        intro hc
        subst hc
        exact cnt_pos_of_mem hmem (by simp) hhk
      rw [cnt_snoc_ne _ _ _ _ (by simp), cnt_snoc_ne _ _ _ _ (by
        simp only [keyOf_ramSettle]
        intro hc
        injection hc with hc1 hc2
        exact hne hc2.symm)]
      exact ((bal_of_prefixBal hb) h').2 hmem

/-- Appending the hook dispatch of a handler whose pushes and rams are both
balanced preserves the barrier. -/
lemma bal_append_hook (log : List Ev) (g : Nat)
    (hb : PrefixBal log) (hrseq : cnt K.rs g log = cnt K.rd g log) :
    PrefixBal (log ++ [Ev.hookDispatch g]) := by
  apply prefixBal_append_of log _ hb
  intro q hq
  rcases prefix_single q _ hq with rfl | rfl
  · simpa using bal_of_prefixBal hb
  · intro h'
    constructor
    · rintro ⟨f', hf'⟩
      have hmem : Ev.ramStart h' f' ∈ log := by
        rcases List.mem_append.mp hf' with hm | hm
        · exact hm
        · simp at hm
      rw [cnt_snoc_ne _ _ _ _ (by simp), cnt_snoc_ne _ _ _ _ (by simp)]
      exact ((bal_of_prefixBal hb) h').1 ⟨f', hmem⟩
    · intro hmem0
      rw [cnt_snoc_ne _ _ _ _ (by simp), cnt_snoc_ne _ _ _ _ (by simp)]
      rcases List.mem_append.mp hmem0 with hm | hm
      · exact ((bal_of_prefixBal hb) h').2 hm
      · have : h' = g := by simpa using hm
        rw [this]
        exact hrseq

/-! ## Step lemmas and the machine invariant -/

lemma getH_step_connect (s : Sys) (h : Nat) :
    getH (step s Act.connect) h = resumeWaiting (getH s h) := by
  simp only [step, getH]
  exact getD_map_resumeWaiting _ _

lemma getH_lt_of_ne (s : Sys) (g : Nat) (hne : getH s g ≠ HState.errDrop) :
    g < s.handlers.length := by
  by_contra hc
  apply hne
  unfold getH
  exact getD_ge _ _ _ (le_of_not_lt hc)

lemma entryState_cases (s : Sys) (e : Bool) :
    (entryState s e).1 = HState.errDrop ∨ (entryState s e).1 = HState.gateDrop ∨
    (entryState s e).1 = HState.readingDir ∨ (entryState s e).1 = HState.waitingClient := by
  unfold entryState
  split
  · simp
  · split
    · simp
    · split <;> simp

lemma phaseOk_congr {h : Nat} {l1 l2 : List Ev} {st : HState}
    (hcnt : ∀ k, cnt k h l2 = cnt k h l1) (hp : phaseOk h l1 st) :
    phaseOk h l2 st := by
  cases st <;> simp only [phaseOk, Quiet] at hp ⊢ <;>
    first
      | trivial
      | (simp only [hcnt]; exact hp)

lemma inv_step (s : Sys) (a : Act) (hi : Inv s) : Inv (step s a) := by
  obtain ⟨hb, hpo⟩ := hi
  cases a with
  | writeDisk out => exact ⟨hb, hpo⟩
  | disconnect => exact ⟨hb, hpo⟩
  | submit errors =>
      refine ⟨hb, ?_⟩
      intro h
      by_cases hlt : h < s.handlers.length
      · have hH : getH (step s (Act.submit errors)) h = getH s h := by
          simp only [step, getH]
          exact getD_append_lt _ _ _ _ hlt
        rw [hH]
        exact hpo h
      · have h0 : getH s h = HState.errDrop := by
          unfold getH
          exact getD_ge _ _ _ (le_of_not_lt hlt)
        have hq : Quiet h s.log := by
          have hph := hpo h
          rw [h0] at hph
          exact hph
        by_cases heq : h = s.handlers.length
        · subst heq
          have hH : getH (step s (Act.submit errors)) s.handlers.length =
              (entryState s errors).1 := by
            simp only [step, getH]
            exact getD_snoc_len _ _ _
          rw [hH]
          rcases entryState_cases s errors with hc | hc | hc | hc <;> rw [hc] <;> exact hq
        · have hH : getH (step s (Act.submit errors)) h = HState.errDrop := by
            simp only [step, getH]
            apply getD_ge
            simp only [List.length_append, List.length_cons, List.length_nil]
            omega
          rw [hH]
          exact hq
  | connect =>
      refine ⟨hb, ?_⟩
      intro h
      rw [getH_step_connect]
      have hph := hpo h
      rcases hst : getH s h <;> rw [hst] at hph <;>
        simp only [resumeWaiting] <;> exact hph
  | readdirDone g =>
      simp only [step]
      split
      · next hst =>
        split
        · next hdisk =>
          refine ⟨hb, ?_⟩
          intro h
          simp only [getH]
          by_cases hgh : h = g
          · subst hgh
            have glt : h < s.handlers.length := getH_lt_of_ne s h (by rw [hst]; simp)
            rw [getD_set_self _ _ _ _ glt]
            have hph := hpo h
            rw [hst] at hph
            exact hph
          · rw [getD_set_ne _ _ _ _ _ (fun hc => hgh hc.symm)]
            exact hpo h
        · next hdisk =>
          have hq : Quiet g s.log := by
            have hph := hpo g
            rw [hst] at hph
            exact hph
          refine ⟨bal_append_pushStarts s.log g s.disk hb hq.2.2.1, ?_⟩
          intro h
          simp only [getH]
          by_cases hgh : h = g
          · subst hgh
            have glt : h < s.handlers.length := getH_lt_of_ne s h (by rw [hst]; simp)
            rw [getD_set_self _ _ _ _ glt]
            show cnt K.ps h (s.log ++ s.disk.map (Ev.pushStart h)) = s.disk.length ∧ _
            rw [cnt_append, cnt_append, cnt_append, cnt_append, cnt_append]
            rw [cnt_map_const (Ev.pushStart h) (K.ps, h) (fun x => rfl) s.disk K.ps h,
              cnt_map_const (Ev.pushStart h) (K.ps, h) (fun x => rfl) s.disk K.pd h,
              cnt_map_const (Ev.pushStart h) (K.ps, h) (fun x => rfl) s.disk K.rs h,
              cnt_map_const (Ev.pushStart h) (K.ps, h) (fun x => rfl) s.disk K.rd h,
              cnt_map_const (Ev.pushStart h) (K.ps, h) (fun x => rfl) s.disk K.hk h]
            obtain ⟨q1, q2, q3, q4, q5⟩ := hq
            rw [q1, q2, q3, q4, q5]
            refine ⟨by simp, by simp, by simp, by simp, by simp⟩
          · rw [getD_set_ne _ _ _ _ _ (fun hc => hgh hc.symm)]
            apply phaseOk_congr ?_ (hpo h)
            intro k
            apply cnt_append_tag_ne
            intro e he
            rcases mem_map_pushStart he with ⟨f, rfl⟩
            simpa using fun hc => hgh hc.symm
      · exact ⟨hb, hpo⟩
  | settlePush g i =>
      simp only [step]
      split
      · next files outst hst =>
        split
        · next f hfi =>
          have hilt : i < outst.length := by
            by_contra hc
            rw [List.getElem?_eq_none (by omega)] at hfi
            cases hfi
          have hpp := hpo g
          rw [hst] at hpp
          obtain ⟨p1, p2, p3, p4, p5⟩ := hpp
          split
          · next hok =>
            refine ⟨bal_append_pushSettle s.log g f hb p3, ?_⟩
            intro h
            simp only [getH]
            by_cases hgh : h = g
            · subst hgh
              have glt : h < s.handlers.length := getH_lt_of_ne s h (by rw [hst]; simp)
              rw [getD_set_self _ _ _ _ glt]
              have hlen : (outst.eraseIdx i).length = outst.length - 1 := by
                rw [List.length_eraseIdx]
                simp [hilt]
              show cnt K.ps h (s.log ++ [Ev.pushSettle h f]) = files.length ∧ _
              rw [cnt_snoc_ne _ _ _ _ (by simp),
                cnt_snoc_eq _ _ _ _ (by simp),
                cnt_snoc_ne _ _ _ _ (by simp),
                cnt_snoc_ne _ _ _ _ (by simp),
                cnt_snoc_ne _ _ _ _ (by simp)]
              refine ⟨p1, ?_, p3, p4, p5⟩
              rw [hlen]
              omega
            · rw [getD_set_ne _ _ _ _ _ (fun hc => hgh hc.symm)]
              apply phaseOk_congr ?_ (hpo h)
              intro k
              apply cnt_append_tag_ne
              intro e he
              rcases List.mem_singleton.mp he with rfl
              simpa using fun hc => hgh hc.symm
          · next hok =>
            refine ⟨bal_append_pushSettle s.log g f hb p3, ?_⟩
            intro h
            simp only [getH]
            by_cases hgh : h = g
            · subst hgh
              have glt : h < s.handlers.length := getH_lt_of_ne s h (by rw [hst]; simp)
              rw [getD_set_self _ _ _ _ glt]
              trivial
            · rw [getD_set_ne _ _ _ _ _ (fun hc => hgh hc.symm)]
              apply phaseOk_congr ?_ (hpo h)
              intro k
              apply cnt_append_tag_ne
              intro e he
              rcases List.mem_singleton.mp he with rfl
              simpa using fun hc => hgh hc.symm
        · exact ⟨hb, hpo⟩
      · exact ⟨hb, hpo⟩
  | resumePushes g =>
      simp only [step]
      split
      · next files outst hst =>
        split
        · next hout =>
          subst hout
          have hpp := hpo g
          rw [hst] at hpp
          obtain ⟨p1, p2, p3, p4, p5⟩ := hpp
          have hpd : cnt K.pd g s.log = files.length := by
            simpa using p2
          refine ⟨bal_append_ramStarts s.log g files hb (by omega) p5, ?_⟩
          intro h
          simp only [getH]
          by_cases hgh : h = g
          · subst hgh
            have glt : h < s.handlers.length := getH_lt_of_ne s h (by rw [hst]; simp)
            rw [getD_set_self _ _ _ _ glt]
            show cnt K.ps h (s.log ++ files.map (Ev.ramStart h)) = _ ∧ _
            rw [cnt_append, cnt_append, cnt_append, cnt_append, cnt_append]
            rw [cnt_map_const (Ev.ramStart h) (K.rs, h) (fun x => rfl) files K.ps h,
              cnt_map_const (Ev.ramStart h) (K.rs, h) (fun x => rfl) files K.pd h,
              cnt_map_const (Ev.ramStart h) (K.rs, h) (fun x => rfl) files K.rs h,
              cnt_map_const (Ev.ramStart h) (K.rs, h) (fun x => rfl) files K.rd h,
              cnt_map_const (Ev.ramStart h) (K.rs, h) (fun x => rfl) files K.hk h]
            rw [p1, p3, p4, p5, hpd]
            refine ⟨by simp, by simp, by simp, by simp⟩
          · rw [getD_set_ne _ _ _ _ _ (fun hc => hgh hc.symm)]
            apply phaseOk_congr ?_ (hpo h)
            intro k
            apply cnt_append_tag_ne
            intro e he
            rcases mem_map_ramStart he with ⟨f, rfl⟩
            simpa using fun hc => hgh hc.symm
        · exact ⟨hb, hpo⟩
      · exact ⟨hb, hpo⟩
  | settleRam g i =>
      simp only [step]
      split
      · next files outst hst =>
        split
        · next f hfi =>
          have hilt : i < outst.length := by
            by_contra hc
            rw [List.getElem?_eq_none (by omega)] at hfi
            cases hfi
          have hpp := hpo g
          rw [hst] at hpp
          obtain ⟨p1, p2, p3, p4⟩ := hpp
          split
          · next hok =>
            refine ⟨bal_append_ramSettle s.log g f hb p4, ?_⟩
            intro h
            simp only [getH]
            by_cases hgh : h = g
            · subst hgh
              have glt : h < s.handlers.length := getH_lt_of_ne s h (by rw [hst]; simp)
              rw [getD_set_self _ _ _ _ glt]
              have hlen : (outst.eraseIdx i).length = outst.length - 1 := by
                rw [List.length_eraseIdx]
                simp [hilt]
              show cnt K.ps h (s.log ++ [Ev.ramSettle h f]) = _ ∧ _
              rw [cnt_snoc_ne _ _ _ _ (by simp),
                cnt_snoc_ne _ _ _ _ (by simp),
                cnt_snoc_ne _ _ _ _ (by simp),
                cnt_snoc_eq _ _ _ _ (by simp),
                cnt_snoc_ne _ _ _ _ (by simp)]
              refine ⟨p1, p2, ?_, p4⟩
              rw [hlen]
              omega
            · rw [getD_set_ne _ _ _ _ _ (fun hc => hgh hc.symm)]
              apply phaseOk_congr ?_ (hpo h)
              intro k
              apply cnt_append_tag_ne
              intro e he
              rcases List.mem_singleton.mp he with rfl
              simpa using fun hc => hgh hc.symm
          · next hok =>
            refine ⟨bal_append_ramSettle s.log g f hb p4, ?_⟩
            intro h
            simp only [getH]
            by_cases hgh : h = g
            · subst hgh
              have glt : h < s.handlers.length := getH_lt_of_ne s h (by rw [hst]; simp)
              rw [getD_set_self _ _ _ _ glt]
              trivial
            · rw [getD_set_ne _ _ _ _ _ (fun hc => hgh hc.symm)]
              apply phaseOk_congr ?_ (hpo h)
              intro k
              apply cnt_append_tag_ne
              intro e he
              rcases List.mem_singleton.mp he with rfl
              simpa using fun hc => hgh hc.symm
        · exact ⟨hb, hpo⟩
      · exact ⟨hb, hpo⟩
  | resumeRam g =>
      simp only [step]
      split
      · next files outst hst =>
        split
        · next hout =>
          subst hout
          have hpp := hpo g
          rw [hst] at hpp
          obtain ⟨p1, p2, p3, p4⟩ := hpp
          have hrd : cnt K.rd g s.log = files.length := by
            simpa using p3
          refine ⟨bal_append_hook s.log g hb (by omega), ?_⟩
          intro h
          simp only [getH]
          by_cases hgh : h = g
          · subst hgh
            have glt : h < s.handlers.length := getH_lt_of_ne s h (by rw [hst]; simp)
            rw [getD_set_self _ _ _ _ glt]
            trivial
          · rw [getD_set_ne _ _ _ _ _ (fun hc => hgh hc.symm)]
            apply phaseOk_congr ?_ (hpo h)
            intro k
            apply cnt_append_tag_ne
            intro e he
            rcases List.mem_singleton.mp he with rfl
            simpa using fun hc => hgh hc.symm
        · exact ⟨hb, hpo⟩
      · exact ⟨hb, hpo⟩
  | settleHooks g =>
      simp only [step]
      split
      · next hst =>
        refine ⟨hb, ?_⟩
        intro h
        simp only [getH]
        by_cases hgh : h = g
        · subst hgh
          have glt : h < s.handlers.length := getH_lt_of_ne s h (by rw [hst]; simp)
          rw [getD_set_self _ _ _ _ glt]
          trivial
        · rw [getD_set_ne _ _ _ _ _ (fun hc => hgh hc.symm)]
          exact hpo h
      · exact ⟨hb, hpo⟩

lemma inv_init : Inv init := by
  constructor
  · intro p hp
    have hp0 : p = [] := List.prefix_nil.mp hp
    subst hp0
    intro h
    constructor
    · rintro ⟨f, hf⟩
      cases hf
    · intro hf
      cases hf
  · intro h
    have h0 : getH init h = HState.errDrop := by
      unfold getH init
      simp [List.getD]
    rw [h0]
    exact ⟨rfl, rfl, rfl, rfl, rfl⟩

lemma inv_run_of (s : Sys) (acts : List Act) (hi : Inv s) : Inv (run s acts) := by
  induction acts generalizing s with
  | nil => exact hi
  | cons a rest ih => exact ih (step s a) (inv_step s a hi)

lemma inv_run (acts : List Act) : Inv (run init acts) := inv_run_of init acts inv_init

lemma run_append (s : Sys) (l1 l2 : List Act) :
    run s (l1 ++ l2) = run (run s l1) l2 := by
  simp [run, List.foldl_append]

lemma len_step (s : Sys) (a : Act) :
    s.handlers.length ≤ (step s a).handlers.length := by
  cases a <;> simp only [step] <;>
    first
      | simp
      | (split <;>
          first
            | simp
            | (split <;>
                first
                  | simp
                  | (split <;> simp)))

/-- A handler in an already-terminated or waiting state is not modified by
any action other than a `client-connected` event. -/
lemma getH_step_untouched (s : Sys) (a : Act) (h : Nat)
    (hfrozen : getH s h = HState.errDrop ∨ getH s h = HState.gateDrop ∨
      getH s h = HState.waitingClient ∨ getH s h = HState.emptyDone ∨
      getH s h = HState.pushFailed ∨ getH s h = HState.ramFailed ∨
      getH s h = HState.doneOk)
    (hl : h < s.handlers.length) (hca : a ≠ Act.connect) :
    getH (step s a) h = getH s h := by
  have hactive : ∀ g : Nat, ∀ st : HState, getH s g = st →
      (st = HState.readingDir ∨ (∃ fs os, st = HState.pushing fs os) ∨
        (∃ fs os, st = HState.ramming fs os) ∨ st = HState.hooking) → g ≠ h := by
    intro g st hg hstA hc
    subst hc
    rw [hg] at hfrozen
    rcases hstA with rfl | ⟨fs, os, rfl⟩ | ⟨fs, os, rfl⟩ | rfl <;>
      rcases hfrozen with hf | hf | hf | hf | hf | hf | hf <;> cases hf
  cases a with
  | writeDisk out => rfl
  | disconnect => rfl
  | connect => exact absurd rfl hca
  | submit e =>
      simp only [step, getH]
      exact getD_append_lt _ _ _ _ hl
  | readdirDone g =>
      simp only [step]
      split
      · next hst =>
        have hne : g ≠ h := hactive g _ hst (Or.inl rfl)
        split
        · simp only [getH]
          rw [getD_set_ne _ _ _ _ _ hne]
        · simp only [getH]
          rw [getD_set_ne _ _ _ _ _ hne]
      · rfl
  | settlePush g i =>
      simp only [step]
      split
      · next files outst hst =>
        have hne : g ≠ h := hactive g _ hst (Or.inr (Or.inl ⟨files, outst, rfl⟩))
        split
        · split
          · simp only [getH]
            rw [getD_set_ne _ _ _ _ _ hne]
          · simp only [getH]
            rw [getD_set_ne _ _ _ _ _ hne]
        · rfl
      · rfl
  | resumePushes g =>
      simp only [step]
      split
      · next files outst hst =>
        have hne : g ≠ h := hactive g _ hst (Or.inr (Or.inl ⟨files, outst, rfl⟩))
        split
        · simp only [getH]
          rw [getD_set_ne _ _ _ _ _ hne]
        · rfl
      · rfl
  | settleRam g i =>
      simp only [step]
      split
      · next files outst hst =>
        have hne : g ≠ h := hactive g _ hst (Or.inr (Or.inr (Or.inl ⟨files, outst, rfl⟩)))
        split
        · split
          · simp only [getH]
            rw [getD_set_ne _ _ _ _ _ hne]
          · simp only [getH]
            rw [getD_set_ne _ _ _ _ _ hne]
        · rfl
      · rfl
  | resumeRam g =>
      simp only [step]
      split
      · next files outst hst =>
        have hne : g ≠ h := hactive g _ hst (Or.inr (Or.inr (Or.inl ⟨files, outst, rfl⟩)))
        split
        · simp only [getH]
          rw [getD_set_ne _ _ _ _ _ hne]
        · rfl
      · rfl
  | settleHooks g =>
      simp only [step]
      split
      · next hst =>
        have hne : g ≠ h := hactive g _ hst (Or.inr (Or.inr (Or.inr rfl)))
        simp only [getH]
        rw [getD_set_ne _ _ _ _ _ hne]
      · rfl

/-- A dropped submission stays dropped under every further schedule: it is
never replayed. -/
lemma getH_run_drop (s : Sys) (acts : List Act) (h : Nat)
    (hl : h < s.handlers.length)
    (hdrop : getH s h = HState.errDrop ∨ getH s h = HState.gateDrop) :
    getH (run s acts) h = getH s h ∧ h < (run s acts).handlers.length := by
  induction acts generalizing s with
  | nil => exact ⟨rfl, hl⟩
  | cons a rest ih =>
      have hstep : getH (step s a) h = getH s h := by
        by_cases hca : a = Act.connect
        · subst hca
          rw [getH_step_connect]
          rcases hdrop with hf | hf <;> rw [hf] <;> rfl
        · apply getH_step_untouched s a h ?_ hl hca
          rcases hdrop with hf | hf
          · exact Or.inl hf
          · exact Or.inr (Or.inl hf)
      have hl' : h < (step s a).handlers.length := lt_of_lt_of_le hl (len_step s a)
      have hd' : getH (step s a) h = HState.errDrop ∨
          getH (step s a) h = HState.gateDrop := by
        rw [hstep]
        exact hdrop
      obtain ⟨h1, h2⟩ := ih (step s a) hl' hd'
      refine ⟨?_, ?_⟩
      · show getH (run (step s a) rest) h = getH s h
        rw [h1, hstep]
      · show h < (run (step s a) rest).handlers.length
        exact h2

lemma step_submit_eq (s : Sys) (e : Bool) :
    step s (Act.submit e) =
      { s with handlers := s.handlers ++ [(entryState s e).1],
               queued := (entryState s e).2 } := rfl

lemma entryState_errors (s : Sys) : entryState s true = (HState.errDrop, s.queued) := rfl

lemma entryState_queued (s : Sys) (hq : s.queued = true) (e : Bool) :
    entryState s e = (if e then HState.errDrop else HState.gateDrop, s.queued) := by
  cases e <;> simp [entryState, hq]

lemma entryState_wait (s : Sys) (hq : s.queued = false) (hc : s.connected = false) :
    entryState s false = (HState.waitingClient, true) := by
  simp [entryState, hq, hc]

lemma rebase_concrete (od : List Char) (hs1 : '/' ∉ od) (hs2 : '\\' ∉ od)
    (sep : Char) (hsep : sep = '/' ∨ sep = '\\') (r : List Char) :
    stripFirstSeg (normSlash (od ++ sep :: r)) = normSlash r := by
  rw [normSlash_append, normSlash_clean od hs2, normSlash_sep sep r hsep]
  exact stripFirstSeg_append _ _ hs1

/-! ## Claim theorems -/

/-- Claim C10 (confirmed): imports whose path is exactly `react` or
`react-dom` are intercepted into the dedicated `react` namespace and load
the window-global shims; other paths (`react-dom/client`, `preact`) are not
intercepted, so only these two specifiers bypass `node_modules`. -/
theorem C10_react_shim :
    onResolveReact "react" = some { ns := "react", path := "react" } ∧
    onResolveReact "react-dom" = some { ns := "react", path := "react-dom" } ∧
    onResolveReact "react-dom/client" = none ∧
    onResolveReact "preact" = none ∧
    onLoadReact "react" "react" = some "module.exports = window.React" ∧
    onLoadReact "react" "react-dom" = some "module.exports = window.ReactDOM" ∧
    onLoadReact "file" "react" = none := by
  refine ⟨by decide, by decide, by decide, by decide, by decide, by decide, by decide⟩

/-- Claim C9 counterexample: on an absent output directory the resolution
step raises (the uncaught `fs.readdir` rejection), rather than returning an
empty list as the claim states. -/
theorem C9_absent_cex :
    resolveStep "build".toList none = Except.error "ENOENT".toList ∧
    resolveStep "build".toList none ≠ Except.ok ([] : List OutFile) := by
  constructor
  · rfl
  · intro hcon
    simp [resolveStep] at hcon

/-- Claim C9 amended: resolution of an empty output directory yields an
empty descriptor list and no error; resolution of an absent output
directory raises the readdir error. -/
theorem C9_resolution_amended (od : List Char) :
    resolveStep od (some []) = Except.ok [] ∧
    resolveStep od none = Except.error "ENOENT".toList :=
  ⟨rfl, rfl⟩

/-- Claim C3 counterexample: with the configured outdir `dist/out` (a path
of two segments), both descriptors get server `out` — the rebase strips only
the first path segment, not the whole outdir prefix — so the resolver does
not produce the claimed `serverA`/`serverB` descriptors. -/
theorem C3_resolver_cex :
    resolveFiles "dist/out".toList (c3Entries "dist/out".toList '/') ≠
      c3Expected "dist/out".toList ∧
    (resolveFiles "dist/out".toList (c3Entries "dist/out".toList '/')).map
        (fun d => d.server) = ["out".toList, "out".toList] := by
  refine ⟨by decide, by decide⟩

/-- Claim C3 amended: for an output directory whose configured path is one
nonempty separator-free segment, the resolver produces exactly the two
descriptors `(serverA, x.js)` and `(serverB, sub/y.js)`, under either
path-separator convention. -/
theorem C3_resolver_amended (od : List Char) (sep : Char)
    ( _hod : od ≠ []) (hs1 : '/' ∉ od) (hs2 : '\\' ∉ od)
    (hsep : sep = '/' ∨ sep = '\\') :
    resolveFiles od (c3Entries od sep) = c3Expected od := by
  rcases hsep with rfl | rfl
  · have key3 := rebase_concrete od hs1 hs2 '/' (Or.inl rfl) "serverA".toList
    have key5 := rebase_concrete od hs1 hs2 '/' (Or.inl rfl)
      ("serverB".toList ++ '/' :: "sub".toList)
    norm_num at key3 key5
    simp only [resolveFiles, c3Entries, c3Expected, List.filter_cons, List.filter_nil]
    norm_num
    rw [key3, key5]
    decide
  · have key3 := rebase_concrete od hs1 hs2 '\\' (Or.inr rfl) "serverA".toList
    have key5 := rebase_concrete od hs1 hs2 '\\' (Or.inr rfl)
      ("serverB".toList ++ '\\' :: "sub".toList)
    norm_num at key3 key5
    simp only [resolveFiles, c3Entries, c3Expected, List.filter_cons, List.filter_nil]
    norm_num
    rw [key3, key5]
    decide

/-- Witness for C3 amended at the concrete outdir `build` under the
backslash convention. -/
theorem C3_resolver_amended_w :
    (("build".toList : List Char) ≠ [] ∧ '/' ∉ "build".toList ∧ '\\' ∉ "build".toList) ∧
    resolveFiles "build".toList (c3Entries "build".toList '\\') =
      c3Expected "build".toList := by
  refine ⟨⟨by decide, by decide, by decide⟩, ?_⟩
  exact C3_resolver_amended "build".toList '\\' (by decide) (by decide) (by decide)
    (Or.inr rfl)

/-- Claim C6 counterexample: an extension hook that throws synchronously
escapes the `map` before `Promise.allSettled` is reached — the dispatch
raises and the second extension is never invoked, falsifying the claim that
one hook's throwing prevents neither siblings nor the pipeline. -/
theorem C6_dispatch_cex :
    ¬ c6Claim [HookB.throwsSync, HookB.resolves] ∧
    invoke [HookB.throwsSync, HookB.resolves] = InvokeRes.raised [0] := by
  constructor
  · unfold c6Claim
    decide
  · decide

/-- Claim C6 amended: when no hook throws synchronously, dispatch invokes
every implementing extension, waits for all to settle and never raises —
rejected promises are isolated by `allSettled`; a synchronously-throwing
hook aborts the dispatch after the extensions up to and including it were
invoked, and the exception propagates. -/
theorem C6_dispatch_amended :
    (∀ exts : List HookB, HookB.throwsSync ∉ exts →
        invoke exts = InvokeRes.settled (implementers 0 exts)) ∧
    (∀ pre post : List HookB, HookB.throwsSync ∉ pre →
        invoke (pre ++ HookB.throwsSync :: post) =
          InvokeRes.raised (implementers 0 pre ++ [pre.length])) := by
  constructor
  · intro exts hns
    unfold invoke
    rw [mapHooks_ok exts 0 hns]
  · intro pre post hns
    unfold invoke
    rw [mapHooks_throw pre 0 post hns]
    norm_num

/-- Witness for C6 amended: a rejecting hook is isolated (both extensions
invoked, dispatch settles); a synchronous throw after one resolving hook
raises with only the first two invoked. -/
theorem C6_dispatch_amended_w :
    (HookB.throwsSync ∉ [HookB.rejects, HookB.resolves] ∧
      invoke [HookB.rejects, HookB.resolves] = InvokeRes.settled [0, 1]) ∧
    (HookB.throwsSync ∉ [HookB.resolves] ∧
      invoke ([HookB.resolves] ++ HookB.throwsSync :: []) = InvokeRes.raised [0, 1]) := by
  refine ⟨⟨by decide, ?_⟩, ⟨by decide, ?_⟩⟩
  · exact C6_dispatch_amended.1 [HookB.rejects, HookB.resolves] (by decide)
  · exact C6_dispatch_amended.2 [HookB.resolves] [] (by decide)

/-- Claim C2 (code bug): after a build submitted with no client connected
resumes on `client-connected` and resolves an empty output list, the handler
returns at the `files.length == 0` early return without clearing `queued` —
the gate stays busy forever and the next submission is dropped.  The claim
(and spec §4.3) says the gate releases on every completion. -/
theorem C2_gate_leak :
    (run init c2acts).queued = true ∧
    getH (run init c2acts) 0 = HState.emptyDone ∧
    getH (step (run init c2acts) (Act.submit false)) 1 = HState.gateDrop := by
  refine ⟨by decide, by decide, by decide⟩

/-- Claim C1 counterexample: two error-free builds submitted back-to-back
while a client is connected both pass the gate — the `queued` flag is never
set on the connected path — leaving two push sequences in flight at once,
with the second submission not dropped and the flag still false. -/
theorem C1_single_flight_cex :
    inFlightCount (run init c1acts) = 2 ∧
    getH (run init c1acts) 0 = HState.pushing [f0] [f0] ∧
    getH (run init c1acts) 1 = HState.pushing [f0] [f0] ∧
    (run init c1acts).queued = false := by
  refine ⟨by decide, by decide, by decide, by decide⟩

/-- Claim C1 amended: the single-flight guarantee holds exactly for the
waiting-for-client path.  (i) While the flag is set, any submission is
dropped in the same synchronous entry step, with no other state change and
nothing queued; (ii) a submission accepted with no connection marks the gate
busy synchronously, in the same atomic entry step; (iii) a dropped
submission is never replayed by any later schedule. -/
theorem C1_gate_amended :
    (∀ (s : Sys) (e : Bool), s.queued = true →
        step s (Act.submit e) =
          { s with handlers := s.handlers ++
              [if e then HState.errDrop else HState.gateDrop] }) ∧
    (∀ s : Sys, s.queued = false → s.connected = false →
        (step s (Act.submit false)).queued = true ∧
        getH (step s (Act.submit false)) s.handlers.length = HState.waitingClient) ∧
    (∀ (s : Sys) (acts : List Act) (h : Nat), h < s.handlers.length →
        getH s h = HState.gateDrop → getH (run s acts) h = HState.gateDrop) := by
  refine ⟨?_, ?_, ?_⟩
  · intro s e hq
    rw [step_submit_eq, entryState_queued s hq e]
  · intro s hq hc
    rw [step_submit_eq, entryState_wait s hq hc]
    exact ⟨rfl, getD_snoc_len _ _ _⟩
  · intro s acts h hl hg
    have hp := getH_run_drop s acts h hl (Or.inr hg)
    rw [hp.1, hg]

/-- Witness for C1 amended, at a state with one waiting handler and at the
initial state. -/
theorem C1_gate_amended_w :
    (c1wSys.queued = true ∧
      step c1wSys (Act.submit false) =
        { c1wSys with handlers := c1wSys.handlers ++ [HState.gateDrop] }) ∧
    (init.queued = false ∧ init.connected = false ∧
      (step init (Act.submit false)).queued = true) ∧
    ((0 : Nat) < c1wSys.handlers.length ∧
      getH (run { c1wSys with
        handlers := c1wSys.handlers ++ [HState.gateDrop] } [Act.connect]) 1 =
        HState.gateDrop) := by
  refine ⟨⟨rfl, ?_⟩, ⟨rfl, rfl, ?_⟩, ⟨by decide, ?_⟩⟩
  · have hres := C1_gate_amended.1 c1wSys false rfl
    simpa using hres
  · exact (C1_gate_amended.2.1 init rfl rfl).1
  · exact C1_gate_amended.2.2 { c1wSys with
      handlers := c1wSys.handlers ++ [HState.gateDrop] } [Act.connect] 1
      (by decide) (by decide)

/-- Claim C8 (confirmed): in every reachable log, at every instant, a
`calculateRAM` call of a cycle is only ever started with all of that cycle's
`pushFile` calls settled, and the `afterBuild` dispatch of a cycle only ever
happens with all of that cycle's `calculateRAM` calls settled. -/
theorem C8_stage_barrier (acts : List Act) : PrefixBal ((run init acts).log) :=
  (inv_run acts).1

/-- Witness for C8 at a complete concrete cycle. -/
theorem C8_stage_barrier_w : Bal ((run init c8acts).log) :=
  C8_stage_barrier c8acts ((run init c8acts).log) (List.prefix_refl _)

/-- Claim C7 (confirmed): a build submitted with compile errors returns at
the first line of the handler: that cycle never issues a pushFile or
calculateRAM call under any further schedule, and the submission step leaves
the queued flag, the log and the disk unchanged. -/
theorem C7_compile_errors_drop (acts1 acts2 : List Act) :
    getH (run init (acts1 ++ Act.submit true :: acts2))
        (run init acts1).handlers.length = HState.errDrop ∧
    cnt K.ps (run init acts1).handlers.length
        (run init (acts1 ++ Act.submit true :: acts2)).log = 0 ∧
    cnt K.rs (run init acts1).handlers.length
        (run init (acts1 ++ Act.submit true :: acts2)).log = 0 ∧
    (step (run init acts1) (Act.submit true)).queued = (run init acts1).queued ∧
    (step (run init acts1) (Act.submit true)).log = (run init acts1).log ∧
    (step (run init acts1) (Act.submit true)).disk = (run init acts1).disk := by
  have hrw : run init (acts1 ++ Act.submit true :: acts2) =
      run (step (run init acts1) (Act.submit true)) acts2 := by
    rw [run_append]
    rfl
  have hstep : step (run init acts1) (Act.submit true) =
      { run init acts1 with
          handlers := (run init acts1).handlers ++ [HState.errDrop] } := by
    rw [step_submit_eq, entryState_errors]
  have hlen : (run init acts1).handlers.length <
      (step (run init acts1) (Act.submit true)).handlers.length := by
    rw [hstep]
    simp
  have hgd : getH (step (run init acts1) (Act.submit true))
      (run init acts1).handlers.length = HState.errDrop := by
    rw [hstep]
    exact getD_snoc_len _ _ _
  obtain ⟨hpers, _⟩ := getH_run_drop (step (run init acts1) (Act.submit true)) acts2
    (run init acts1).handlers.length hlen (Or.inl hgd)
  have hfin : getH (run init (acts1 ++ Act.submit true :: acts2))
      (run init acts1).handlers.length = HState.errDrop := by
    rw [hrw, hpers, hgd]
  have hq : Quiet (run init acts1).handlers.length
      (run init (acts1 ++ Act.submit true :: acts2)).log := by
    have hinv := inv_run (acts1 ++ Act.submit true :: acts2)
    have hph := hinv.2 (run init acts1).handlers.length
    rw [hfin] at hph
    exact hph
  refine ⟨hfin, hq.1, hq.2.2.1, ?_, ?_, ?_⟩
  · rw [hstep]
  · rw [hstep]
  · rw [hstep]

lemma len_connect (s : Sys) : (step s Act.connect).handlers.length = s.handlers.length := by
  simp [step]

/-- Resuming a `readdir` against a nonempty disk starts exactly the pushes
of the files on disk. -/
lemma step_readdir_pushing (s2 : Sys) (h : Nat)
    (hrd : getH s2 h = HState.readingDir) (hdne : ¬ s2.disk = [])
    (hlt : h < s2.handlers.length) :
    getH (step s2 (Act.readdirDone h)) h = HState.pushing s2.disk s2.disk ∧
    (step s2 (Act.readdirDone h)).log = s2.log ++ s2.disk.map (Ev.pushStart h) := by
  have hred : step s2 (Act.readdirDone h) =
      { s2 with
          handlers := s2.handlers.set h (HState.pushing s2.disk s2.disk),
          log := s2.log ++ s2.disk.map (Ev.pushStart h) } := by
    simp only [step, hrd, hdne]
    simp
  constructor
  · rw [hred]
    simp only [getH]
    exact getD_set_self _ _ _ _ hlt
  · rw [hred]

/-- Claim C4 (confirmed): an error-free build completing while disconnected,
with the gate free, suspends with the gate busy; while it waits every
further submission is dropped; no action except a `client-connected` event
resumes it, and a second such event does not re-resume it; once resumed, its
readdir yields exactly the triggering build's output, all of whose files are
pushed. -/
theorem C4_wait_for_client (s : Sys) (out : List F)
    (hq : s.queued = false) (hc : s.connected = false) (hout : out ≠ []) :
    c4Concl s out := by
  have hs1 : step (step s (Act.writeDisk out)) (Act.submit false) =
      { s with
          disk := out,
          handlers := s.handlers ++ [HState.waitingClient],
          queued := true } := by
    rw [step_submit_eq, entryState_wait (step s (Act.writeDisk out)) hq hc]
    rfl
  have hwait : getH (step (step s (Act.writeDisk out)) (Act.submit false))
      s.handlers.length = HState.waitingClient := by
    rw [hs1]
    exact getD_snoc_len _ _ _
  have hlen1 : s.handlers.length <
      (step (step s (Act.writeDisk out)) (Act.submit false)).handlers.length := by
    rw [hs1]
    simp
  have hrd : getH (step (step (step s (Act.writeDisk out)) (Act.submit false)) Act.connect)
      s.handlers.length = HState.readingDir := by
    rw [getH_step_connect, hwait]
    rfl
  have hd2 : (step (step (step s (Act.writeDisk out)) (Act.submit false)) Act.connect).disk
      = out := by
    simp only [step]
  have hlen2 : s.handlers.length <
      (step (step (step s (Act.writeDisk out)) (Act.submit false))
        Act.connect).handlers.length := by
    rw [len_connect]
    exact hlen1
  refine ⟨⟨?_, ?_⟩, ?_, ?_, ⟨?_, ?_⟩, ?_⟩
  · exact hwait
  · rw [hs1]
  · intro e
    rw [hs1, step_submit_eq, entryState_queued _ rfl e]
    exact getD_snoc_len _ _ _
  · intro a ha
    rw [getH_step_untouched _ a _ (Or.inr (Or.inr (Or.inl hwait))) hlen1 ha]
    exact hwait
  · exact hrd
  · rw [getH_step_connect, hrd]
    rfl
  · have hdne : ¬ (step (step (step s (Act.writeDisk out)) (Act.submit false))
        Act.connect).disk = [] := by
      rw [hd2]
      exact hout
    obtain ⟨e1, e2⟩ := step_readdir_pushing _ s.handlers.length hrd hdne hlen2
    constructor
    · rw [e1, hd2]
    · rw [e2, hd2]

/-- Witness for C4 at the initial state with a one-file build output. -/
theorem C4_wait_for_client_w :
    (init.queued = false ∧ init.connected = false ∧ ([f0] : List F) ≠ []) ∧
    c4Concl init [f0] := by
  refine ⟨⟨rfl, rfl, by decide⟩, ?_⟩
  exact C4_wait_for_client init [f0] rfl rfl (by decide)

/-- Claim C5 (confirmed): in the mirror handler's call trace, no session's
`syncWithRemote` begins until `initFileCache` has resolved for every
session, and no session's `watch` begins until `syncWithRemote` has resolved
for every session. -/
theorem C5_mirror_phases (ss : List MSession) ( _hlen : 2 ≤ ss.length)
    (l1 l2 : List MEv) (i : Nat) :
    (mirrorTrace ss = l1 ++ MEv.syncStart i :: l2 →
      ∀ j, j < ss.length → MEv.initDone j ∈ l1) ∧
    (mirrorTrace ss = l1 ++ MEv.watchStart i :: l2 →
      ∀ j, j < ss.length → MEv.syncDone j ∈ l1) := by
  constructor
  · intro heq j hj
    have hip : (initPhase 0 ss).2 = true := by
      by_contra hip
      have htr : mirrorTrace ss = (initPhase 0 ss).1 := by
        simp only [mirrorTrace]
        rw [if_neg hip]
      rw [htr] at heq
      have hmem : MEv.syncStart i ∈ (initPhase 0 ss).1 := by
        rw [heq]
        exact List.mem_append_right _ (List.mem_cons_self _ _)
      have hk := initPhase_kinds ss 0 _ hmem
      simp [isInitEv] at hk
    have htr : mirrorTrace ss = (initPhase 0 ss).1 ++
        (if (syncPhase 0 ss).2 = true then
          (syncPhase 0 ss).1 ++ watchEvents ss.length else (syncPhase 0 ss).1) := by
      simp only [mirrorTrace]
      rw [if_pos hip]
      by_cases hsp : (syncPhase 0 ss).2 = true
      · rw [if_pos hsp, if_pos hsp, List.append_assoc]
      · rw [if_neg hsp, if_neg hsp]
    rw [htr] at heq
    obtain ⟨m, hm1, _⟩ := eq_append_split (initPhase 0 ss).1 _ l1 l2 (MEv.syncStart i)
      (by
        intro x hx hcon
        have hk := initPhase_kinds ss 0 x hx
        rw [hcon] at hk
        simp [isInitEv] at hk)
      heq
    rw [hm1]
    apply List.mem_append_left
    have hd := initPhase_all_done ss 0 hip j hj
    simpa using hd
  · intro heq j hj
    have hip : (initPhase 0 ss).2 = true := by
      by_contra hip
      have htr : mirrorTrace ss = (initPhase 0 ss).1 := by
        simp only [mirrorTrace]
        rw [if_neg hip]
      rw [htr] at heq
      have hmem : MEv.watchStart i ∈ (initPhase 0 ss).1 := by
        rw [heq]
        exact List.mem_append_right _ (List.mem_cons_self _ _)
      have hk := initPhase_kinds ss 0 _ hmem
      simp [isInitEv] at hk
    have hsp : (syncPhase 0 ss).2 = true := by
      by_contra hsp
      have htr : mirrorTrace ss = (initPhase 0 ss).1 ++ (syncPhase 0 ss).1 := by
        simp only [mirrorTrace]
        rw [if_pos hip, if_neg hsp]
      rw [htr] at heq
      have hmem : MEv.watchStart i ∈ (initPhase 0 ss).1 ++ (syncPhase 0 ss).1 := by
        rw [heq]
        exact List.mem_append_right _ (List.mem_cons_self _ _)
      rcases List.mem_append.mp hmem with hm | hm
      · have hk := initPhase_kinds ss 0 _ hm
        simp [isInitEv] at hk
      · have hk := syncPhase_kinds ss 0 _ hm
        simp [isSyncEv] at hk
    have htr : mirrorTrace ss =
        ((initPhase 0 ss).1 ++ (syncPhase 0 ss).1) ++ watchEvents ss.length := by
      simp only [mirrorTrace]
      rw [if_pos hip, if_pos hsp]
    rw [htr] at heq
    obtain ⟨m, hm1, _⟩ := eq_append_split ((initPhase 0 ss).1 ++ (syncPhase 0 ss).1) _
      l1 l2 (MEv.watchStart i)
      (by
        intro x hx hcon
        rcases List.mem_append.mp hx with hm | hm
        · have hk := initPhase_kinds ss 0 x hm
          rw [hcon] at hk
          simp [isInitEv] at hk
        · have hk := syncPhase_kinds ss 0 x hm
          rw [hcon] at hk
          simp [isSyncEv] at hk)
      heq
    rw [hm1]
    apply List.mem_append_left
    apply List.mem_append_right
    have hd := syncPhase_all_done ss 0 hsp j hj
    simpa using hd

/-- Witness for C5 at two healthy sessions: the split of the trace at the
first `syncStart` has both sessions' `initDone` in its prefix. -/
theorem C5_mirror_phases_w :
    (2 ≤ ([sOK, sOK] : List MSession).length ∧
      mirrorTrace [sOK, sOK] = c5l1 ++ MEv.syncStart 0 :: c5l2) ∧
    MEv.initDone 0 ∈ c5l1 ∧ MEv.initDone 1 ∈ c5l1 := by
  refine ⟨⟨by decide, by decide⟩, ?_, ?_⟩
  · exact (C5_mirror_phases [sOK, sOK] (by decide) c5l1 c5l2 0).1 (by decide) 0 (by decide)
  · exact (C5_mirror_phases [sOK, sOK] (by decide) c5l1 c5l2 0).1 (by decide) 1 (by decide)

end Plugin
